import Mathlib

/-!
Verification of the EarCV kernel-row counting and mask-cleanup algorithms.

This file gives a shallow embedding of the algorithmic core of the
repository:

* the consensus / clustering / pruning stages of `krn` (src/krn.py,
  lines 96-268), operating on the per-band valley indices;
* the fine-pass re-smoothing loop of `krn` (src/krn.py, lines 148-162),
  with the extrema count after each smoothing treated as an oracle,
  since the smoothing itself is a scipy call;
* the ear clean-up loop of `main` (src/main.py, lines 343-377), with the
  coefficient-of-variation computation treated as an oracle;
* the silk-cleanup convexity loop of `main` (src/main.py, lines 497-521),
  with the convexity measurement after each opening treated as an oracle.

Numbers are modelled as rationals.  NumPy's NaN (produced by
`np.median` on an empty array, and propagated by arithmetic) is modelled
by `Option`: `none` is NaN, and every comparison against `none` is
false, exactly as float comparisons against NaN are.  The two fatal
exception sites of `krn` (`all_peaks[0]` on an empty array and `np.max`
of an empty array) are modelled by an error result.
-/

/-- The two Python exceptions that the `krn` consensus code can raise:
`IndexError` from `all_peaks[0]` on an empty pooled array, and
`ValueError` from `np.max` on an empty array. -/
inductive PyErr : Type
  | indexError : PyErr
  | valueError : PyErr
deriving DecidableEq

/-- Result of running a piece of Python code: a value, or an uncaught
exception. -/
inductive Res (α : Type) : Type
  | ok : α → Res α
  | err : PyErr → Res α
deriving DecidableEq

/-- A NumPy float value: `none` models NaN (as produced by `np.median`
of an empty array), `some q` a finite value. -/
abbrev NpVal := Option ℚ

/-- Subtraction on NumPy values: NaN is absorbing. -/
def nsub : NpVal → NpVal → NpVal
  | some a, some b => some (a - b)
  | _, _ => none

/-- Multiplication on NumPy values: NaN is absorbing. -/
def nmul : NpVal → NpVal → NpVal
  | some a, some b => some (a * b)
  | _, _ => none

/-- Binary maximum on NumPy values: NaN propagates, as in `np.max`. -/
def nmax2 : NpVal → NpVal → NpVal
  | some a, some b => some (max a b)
  | _, _ => none

/-- Strict `<` comparison on NumPy values: any comparison involving NaN
is false, as for Python floats. -/
def NpLt : NpVal → NpVal → Prop
  | some a, some b => a < b
  | _, _ => False

instance instDecNpLt : (x y : NpVal) → Decidable (NpLt x y)
  | some a, some b => inferInstanceAs (Decidable (a < b))
  | some _, none => Decidable.isFalse id
  | none, _ => Decidable.isFalse id

/-- Non-strict comparison on NumPy values: any comparison involving NaN
is false, as for Python floats. -/
def NpLe : NpVal → NpVal → Prop
  | some a, some b => a ≤ b
  | _, _ => False

instance instDecNpLe : (x y : NpVal) → Decidable (NpLe x y)
  | some a, some b => inferInstanceAs (Decidable (a ≤ b))
  | some _, none => Decidable.isFalse id
  | none, _ => Decidable.isFalse id

/-- Ascending sort, modelling `np.sort` / `sorted`. -/
def sortQ (l : List ℚ) : List ℚ := List.insertionSort (· ≤ ·) l

/-- The NumPy median of an already sorted nonempty list: middle element
for odd length, mean of the two middle elements for even length. -/
def npMedianSorted (s : List ℚ) : ℚ :=
  if s.length % 2 = 1 then s.getD (s.length / 2) 0
  else (s.getD (s.length / 2 - 1) 0 + s.getD (s.length / 2) 0) / 2

/-- `np.median` of a list of reals: NaN (`none`) on the empty list
(NumPy warns and yields NaN), otherwise the median of the sorted list. -/
def npMedianQ : List ℚ → NpVal
  | [] => none
  | x :: xs => some (npMedianSorted (sortQ (x :: xs)))

/-- `np.median` of a list of NumPy values: NaN if the list is empty or
contains a NaN, otherwise the median of the underlying reals. -/
def npMedianN (l : List NpVal) : NpVal :=
  if l.any fun x => x.isNone then none
  else npMedianQ (l.filterMap id)

/-- `np.max` of a list of NumPy values: `ValueError` on the empty list,
otherwise the maximum (NaN-propagating). -/
def npMaxN : List NpVal → Res NpVal
  | [] => Res.err PyErr.valueError
  | x :: xs => Res.ok (xs.foldl nmax2 x)

/-- `np.diff` on a list of reals: consecutive differences. -/
def listDiffQ : List ℚ → List ℚ
  | a :: b :: rest => (b - a) :: listDiffQ (b :: rest)
  | _ => []

/-- `np.diff` on a list of NumPy values: consecutive NaN-propagating
differences. -/
def listDiffN : List NpVal → List NpVal
  | a :: b :: rest => nsub b a :: listDiffN (b :: rest)
  | _ => []

/-!
## Consensus clustering (src/krn.py lines 186-202)

    all_peaks = np.sort(all_peaks)
    all_peaks_diff = np.diff(all_peaks)
    all_peaks_diff_med = np.median(all_peaks_diff)
    cur_list = []
    prev_ele = all_peaks[0]
    clustered_list = []
    for i in range(len(all_peaks)):
        if (abs(all_peaks[i]-prev_ele) <= (all_peaks_diff_med)):
            cur_list.append(all_peaks[i])
        else:
            clustered_list.append(cur_list)
            cur_list = [all_peaks[i]]
        prev_ele = all_peaks[i]
    clustered_list.append(cur_list)
    all_peaks_final = []
    for i in range(len(clustered_list)):
        all_peaks_final.append(np.median(clustered_list[i]))
-/

/-- The clustering walk over the sorted pooled valley indices.  State:
remaining indices, `prev_ele`, `cur_list`, `clustered_list`. -/
def clusterAux (m : NpVal) : List ℚ → ℚ → List ℚ → List (List ℚ) → List (List ℚ)
  | [], _, cur, acc => acc ++ [cur]
  | x :: rest, prev, cur, acc =>
    if NpLe (some |x - prev|) m then clusterAux m rest x (cur ++ [x]) acc
    else clusterAux m rest x [x] (acc ++ [cur])

/-- `clustered_list` as built by src/krn.py lines 186-199: sort the
pooled indices, take the median of consecutive differences as the gap
threshold, and walk the sorted sequence.  `all_peaks[0]` raises
`IndexError` when the pooled array is empty. -/
def clusteredList (pooled : List ℚ) : Res (List (List ℚ)) :=
  match sortQ pooled with
  | [] => Res.err PyErr.indexError
  | p0 :: rest =>
    Res.ok (clusterAux (npMedianQ (listDiffQ (p0 :: rest))) (p0 :: rest) p0 [] [])

/-- `all_peaks_final` of src/krn.py lines 200-202: each cluster collapses
to its median. -/
def consensusPeaks (pooled : List ℚ) : Res (List NpVal) :=
  match clusteredList pooled with
  | Res.err e => Res.err e
  | Res.ok cls => Res.ok (cls.map npMedianQ)

/-!
## Adaptive pruning (src/krn.py lines 209-230)

    all_peaks_final_temp = all_peaks_final.copy()
    num_peaks_iter = 0
    threshold = 0.9
    num_exec = 0
    while num_peaks_iter < 6:
        all_peaks_final = all_peaks_final_temp.copy()
        all_peaks_final_diff = np.diff(all_peaks_final)
        all_peaks_final_diff_max = np.max(all_peaks_final_diff)
        prev_ele = all_peaks_final[0]
        i = 1
        while(i < len(all_peaks_final)):
            if (all_peaks_final[i]-prev_ele < (threshold*all_peaks_final_diff_max)):
                all_peaks_final.remove(all_peaks_final[i])
            else:
                prev_ele = all_peaks_final[i]
                i = i+1
        num_peaks_iter = len(all_peaks_final)
        threshold = threshold - 0.1
        num_exec = num_exec + 1
        if num_exec > 6:
            break
-/

/-- Equality test used by Python's `list.remove` on floats: two finite
values compare by value; a NaN argument never matches (the loop never
calls `remove` with a NaN, since the guard comparison is false then). -/
def npEqB : NpVal → NpVal → Bool
  | some a, some b => a == b
  | _, _ => false

/-- `list.remove(x)`: delete the first element equal to `x` (identity on
a list with no match; the source only calls it with a present element). -/
def removeFirstNp : List NpVal → NpVal → List NpVal
  | [], _ => []
  | y :: ys, x => if npEqB y x then ys else y :: removeFirstNp ys x

/-- The inner removal loop of src/krn.py lines 219-224, as fuel-indexed
structural recursion.  Each step either removes the element at the
current position (shrinking the list) or advances `i`, so the distance
`peaks.length - i` drops by exactly one per step and an initial fuel of
`peaks.length` is never exhausted; when `i` reaches the end both the
fuel-out and the loop-exit branch return the current list. -/
def innerPruneF (thr : ℚ) (mx : NpVal) : ℕ → List NpVal → NpVal → ℕ → List NpVal
  | 0, peaks, _, _ => peaks
  | fuel+1, peaks, prev, i =>
    if i < peaks.length then
      if NpLt (nsub (peaks.getD i none) prev) (nmul (some thr) mx) then
        innerPruneF thr mx fuel (removeFirstNp peaks (peaks.getD i none)) prev i
      else innerPruneF thr mx fuel peaks (peaks.getD i none) (i+1)
    else peaks

/-- Result of the whole pruning stage: the final `all_peaks_final`, the
final `num_exec`, and the successive values taken by `threshold` (one
per executed outer pass). -/
structure PruneResult : Type where
  peaks : List NpVal
  numExec : ℕ
  thrs : List ℚ
deriving DecidableEq

/-- One outer pass of the pruning loop (src/krn.py lines 214-224): reset
to the clustered list, recompute the diffs and their maximum (`np.max`
raises `ValueError` on fewer than two peaks), then run the removal
loop starting at `prev_ele = all_peaks_final[0]`, `i = 1`. -/
def prunePass (temp : List NpVal) (thr : ℚ) : Res (List NpVal) :=
  match npMaxN (listDiffN temp) with
  | Res.err e => Res.err e
  | Res.ok mx =>
    match temp with
    | [] => Res.err PyErr.indexError
    | p :: _ => Res.ok (innerPruneF thr mx temp.length temp p 1)

/-- The outer pruning loop, fuel-indexed.  The loop repeats while the
last pass left fewer than 6 peaks, and breaks after the pass that takes
`num_exec` past 6; so at most 7 passes run and a fuel of 7 is never
exhausted (recursion requires `num_exec + 1 ≤ 6`). -/
def pruneGoF (temp : List NpVal) : ℕ → ℚ → ℕ → List NpVal → ℕ → List ℚ → Res PruneResult
  | 0, _, nexec, cur, _, thrs => Res.ok ⟨cur, nexec, thrs⟩
  | fuel+1, thr, nexec, cur, npk, thrs =>
    if npk < 6 then
      match prunePass temp thr with
      | Res.err e => Res.err e
      | Res.ok cur2 =>
        if 6 < nexec + 1 then Res.ok ⟨cur2, nexec + 1, thrs ++ [thr]⟩
        else pruneGoF temp fuel (thr - 1/10) (nexec + 1) cur2 cur2.length (thrs ++ [thr])
    else Res.ok ⟨cur, nexec, thrs⟩

/-- The adaptive pruning stage of src/krn.py lines 209-230, starting
with `threshold = 0.9` and `num_exec = 0`; `num_peaks_iter` starts at 0
so the first pass always runs. -/
def prunePeaks (peaks0 : List NpVal) : Res PruneResult :=
  pruneGoF peaks0 7 (9/10) 0 peaks0 0 []

/-!
## The whole consensus stage of krn (src/krn.py lines 164-268)
-/

/-- The values `krn` computes from the per-band valley indices:
`diff_pre_consensus`, `diff_post_consensus`, `num_peaks`, and the final
peak list the proof lines are drawn at. -/
structure KrnOut : Type where
  pre : NpVal
  post : NpVal
  numPeaks : ℕ
  finalPeaks : List NpVal
deriving DecidableEq

/-- The consensus stage of `krn`, as a function of the valley-index list
of each processed band (the image processing that produces those lists
is scipy/OpenCV work outside the embedding).  Per band, src/krn.py lines
165-168 append `np.median(np.diff(c))` to `dis_kernel` and extend
`all_peaks` with the band's valleys; line 174 sets `diff_pre_consensus =
np.median(dis_kernel)`; lines 186-230 cluster and prune; lines 254-255
set `diff_post_consensus = np.median(np.diff(all_peaks_final))` and
`num_peaks = len(all_peaks_final)`. -/
def krnStats (bands : List (List ℚ)) : Res KrnOut :=
  let disKernel := bands.map fun vb => npMedianQ (listDiffQ vb)
  let pre := npMedianN disKernel
  match consensusPeaks bands.flatten with
  | Res.err e => Res.err e
  | Res.ok cons =>
    match prunePeaks cons with
    | Res.err e => Res.err e
    | Res.ok r => Res.ok ⟨pre, npMedianN (listDiffN r.peaks), r.peaks.length, r.peaks⟩

/-- Written from the claim's words, for comparison only: the median
inter-peak gap over the diffs of all pooled valley indices (sorted)
before clustering. -/
def pooledDiffMedian (bands : List (List ℚ)) : NpVal :=
  npMedianQ (listDiffQ (sortQ bands.flatten))

/-!
## Band slicing (src/krn.py lines 96-111)

    a = utility.ranges(wid3.shape[1], 6)
    a = [int(a[i].split(",")[0]) for i in range(len(a))]
    a = a[1:len(a)-1]
    b = a
    ...
    for i in range(len(b)-1):
        ...
        wid5[:,0:int(b[i])] = 0
        wid5[:,int(b[i+1]):wid5.shape[1]] = 0
-/

/-- Modelled from the spec: `utility.ranges`, whose source file is not
under src/ — §4.6 says the ear is "split into a fixed number of vertical
bands (default 6)", so `ranges n k` splits `[0, n)` into `k` contiguous
bands, returning each band's (start, end) pair. -/
def utilityRanges (n k : ℕ) : List (ℕ × ℕ) :=
  (List.range k).map fun i => (i * n / k, (i + 1) * n / k)

/-- `a = [start of each range][1:len(a)-1]` of src/krn.py lines 96-98:
the band start columns retained for slicing. -/
def sliceStarts (width : ℕ) : List ℕ :=
  (((utilityRanges width 6).map Prod.fst).drop 1).dropLast

/-- The bands actually processed by the loop `for i in range(len(b)-1)`
of src/krn.py line 111: the column interval kept for slice `i` is
`[b[i], b[i+1])`. -/
def processedBands (width : ℕ) : List (ℕ × ℕ) :=
  (List.range ((sliceStarts width).length - 1)).map
    fun i => ((sliceStarts width).getD i 0, (sliceStarts width).getD (i + 1) 0)

/-- `all_peaks.extend(c)` pooling of src/krn.py line 168: every processed
band's valley indices are appended, unshifted, into one array. -/
def pooledValleys (bandValleys : List (List ℚ)) : List ℚ := bandValleys.flatten

/-!
## Fine-pass re-smoothing loop (src/krn.py lines 148-162)

    c = argrelextrema(x, np.less)[0]
    u = 19
    while len(c) > 9:
        window_len = u
        ...
        cols = savgol_filter(x, window_len, 4)
        cols = utility.rescale_linear(cols, 0, wid5.shape[0])
        c = argrelextrema(cols, np.less)[0]
        u = 2 + u
-/

/-- The fine-pass extrema search of src/krn.py lines 148-162.
`mCount w` is the number of local minima of the profile after smoothing
with window length `w` (the savgol filter and extrema detection are
scipy calls, treated as an oracle).  The source loop has no iteration
cap, so the embedding is fuel-indexed: `none` means the loop is still
running after `fuel` re-smoothings. -/
def finePass (mCount : ℕ → ℕ) : ℕ → ℕ → ℕ → Option (ℕ × ℕ)
  | c, u, fuel =>
    if c ≤ 9 then some (c, u)
    else
      match fuel with
      | 0 => none
      | fuel2+1 => finePass mCount (mCount u) (u + 2) fuel2

/-!
## Ear clean-up loop (src/main.py lines 351-377)

    max_cov = 0.35
    max_iterations = 10
    i = 1
    while cov > max_cov and i <= max_iterations:
        mask = cv2.morphologyEx(filtered, cv2.MORPH_OPEN, ..., iterations=i)
        filtered, ear_number = find_ears.filter(...)
        cov = find_ears.calculate_area_cov(filtered)
        i = i+1

(the caller-supplied branch at lines 364-375 is the same loop with
`max_cov, max_iterations = args.ear_cleanup`.)
-/

/-- Final state of the clean-up loop: the last COV value, the final `i`,
and the total number of COV evaluations (the initial
`calculate_area_cov` call plus one per loop body). -/
structure CleanupResult : Type where
  cov : ℚ
  i : ℕ
  evals : ℕ
deriving DecidableEq

/-- The clean-up while loop, fuel-indexed.  `covAt i` is the COV
recomputed by the loop body at iteration `i` (`find_ears.calculate_area_cov`
is not under src/; modelled from spec §4.3 as a total statistic of the
re-filtered mask).  `i` increments each pass, so a fuel of
`maxIter` never runs out starting from `i = 1`: at fuel 0, `i` exceeds
`maxIter` and the loop condition is false anyway. -/
def cleanupGo (covAt : ℕ → ℚ) (maxCov : ℚ) (maxIter : ℕ) : ℕ → ℚ → ℕ → ℕ → CleanupResult
  | 0, cov, i, evals => ⟨cov, i, evals⟩
  | fuel+1, cov, i, evals =>
    if maxCov < cov ∧ i ≤ maxIter then
      cleanupGo covAt maxCov maxIter fuel (covAt i) (i + 1) (evals + 1)
    else ⟨cov, i, evals⟩

/-- The ear clean-up module of src/main.py lines 351-377: starts at
`i = 1` with the COV already computed once (one evaluation). -/
def cleanupLoop (covAt : ℕ → ℚ) (cov0 : ℚ) (maxCov : ℚ) (maxIter : ℕ) : CleanupResult :=
  cleanupGo covAt maxCov maxIter maxIter cov0 1 1

/-!
## Silk-cleanup convexity loop (src/main.py lines 497-521)

    convexity = find_ears.calculate_convexity(b_chnnl)
    if convexity < 0.87:
        i = 1
        conv_var = 0.04
        i_var = 10
    elif args.silk_cleanup is not None:
        conv_var = args.silk_cleanup[0]
        i_var = args.silk_cleanup[1]
    if convexity < 0.87 or args.silk_cleanup is not None:
        delta_conv = 0.001
        while delta_conv < conv_var and i <= i_var:
            b_chnnl = cv2.morphologyEx(b_chnnl, cv2.MORPH_OPEN,
                cv2.getStructuringElement(cv2.MORPH_RECT, (2+i,2+i)), iterations=1+i)
            convexity2 = find_ears.calculate_convexity(b_chnnl)
            delta_conv = convexity2-convexity
            i = i + 1
-/

/-- Final state of the convexity loop: last `delta_conv`, final `i`, and
the (structuring-element size, kernel iterations) of each executed
opening, in order. -/
structure ConvLoopResult : Type where
  delta : ℚ
  i : ℕ
  ops : List (ℕ × ℕ)
deriving DecidableEq

/-- The convexity while loop, fuel-indexed.  `m k` is the convexity
measured after `k` cumulative openings of `b_chnnl`
(`find_ears.calculate_convexity` is not under src/; modelled from spec
§4.4 as a total statistic of the mask).  Note line 519: `delta_conv =
convexity2 - convexity`, where `convexity` is the pre-loop baseline
`conv0`, never reassigned inside the loop.  `i` increments each pass, so
a fuel of `iVar + 1 - i0` never runs out: at fuel 0 the condition
`i ≤ iVar` is false anyway. -/
def convLoopGo (m : ℕ → ℚ) (conv0 convVar : ℚ) (iVar : ℕ) :
    ℕ → ℚ → ℕ → ℕ → List (ℕ × ℕ) → ConvLoopResult
  | 0, delta, i, _, ops => ⟨delta, i, ops⟩
  | fuel+1, delta, i, k, ops =>
    if delta < convVar ∧ i ≤ iVar then
      convLoopGo m conv0 convVar iVar fuel (m (k + 1) - conv0) (i + 1) (k + 1)
        (ops ++ [(2 + i, 1 + i)])
    else ⟨delta, i, ops⟩

/-- The silk-cleanup convexity loop of src/main.py lines 513-521,
entered with `delta_conv = 0.001` and loop counter `i0`. -/
def convexityLoop (m : ℕ → ℚ) (conv0 convVar : ℚ) (iVar : ℕ) (i0 : ℕ) : ConvLoopResult :=
  convLoopGo m conv0 convVar iVar (iVar + 1 - i0) (1/1000) i0 0 []

/-- Written from the claim's words, for comparison only: the same loop
but with `delta = convexity_new - convexity_prev`, the difference
against the convexity measured in the previous iteration rather than
the fixed pre-loop baseline. -/
def convLoopSpecGo (m : ℕ → ℚ) (convVar : ℚ) (iVar : ℕ) :
    ℕ → ℚ → ℚ → ℕ → ℕ → List (ℕ × ℕ) → ConvLoopResult
  | 0, delta, _, i, _, ops => ⟨delta, i, ops⟩
  | fuel+1, delta, prev, i, k, ops =>
    if delta < convVar ∧ i ≤ iVar then
      convLoopSpecGo m convVar iVar fuel (m (k + 1) - prev) (m (k + 1)) (i + 1) (k + 1)
        (ops ++ [(2 + i, 1 + i)])
    else ⟨delta, i, ops⟩

/-- The claim's variant of the convexity loop (previous-iteration delta),
for comparison with `convexityLoop`. -/
def convexityLoopSpec (m : ℕ → ℚ) (conv0 convVar : ℚ) (iVar : ℕ) (i0 : ℕ) : ConvLoopResult :=
  convLoopSpecGo m convVar iVar (iVar + 1 - i0) (1/1000) conv0 i0 0 []

/-- The silk-cleanup module around the loop (src/main.py lines 497-521):
the loop block is guarded by `convexity < 0.87 or args.silk_cleanup is
not None`.  The default branch sets `i = 1, conv_var = 0.04, i_var = 10`;
the custom branch takes thresholds from `args.silk_cleanup` and leaves
`i` at whatever value the enclosing scope holds (`iOuter`).  `none`
means the guarded block — and hence the loop — is skipped entirely. -/
def silkModule (m : ℕ → ℚ) (conv0 : ℚ) (silk : Option (ℚ × ℕ)) (iOuter : ℕ) :
    Option ConvLoopResult :=
  if conv0 < 87/100 then some (convexityLoop m conv0 (1/25) 10 1)
  else
    match silk with
    | some (cv, iv) => some (convexityLoop m conv0 cv iv iOuter)
    | none => none

/-!
## Relations used to state the PeakSet invariant (claim about §3 PeakSet)
-/

/-- Full separation between two clusters: every element of the first is
strictly below every element of the second. -/
def sep (c d : List ℚ) : Prop := ∀ x ∈ c, ∀ y ∈ d, x < y

/-- Strict order on NumPy values: both finite and strictly increasing
(a NaN is never ordered). -/
def strictLtN (a b : NpVal) : Prop := ∃ x y, a = some x ∧ b = some y ∧ x < y

instance instTransStrictLtN : IsTrans NpVal strictLtN where
  trans := by
    rintro a b c ⟨x, y, hx, hy, hxy⟩ ⟨y2, z, hy2, hz, hyz⟩
    refine ⟨x, z, hx, hz, ?_⟩
    rw [hy2] at hy
    cases hy
    exact lt_trans hxy hyz

/-!
## Helper lemmas for the fuel-indexed loops
-/

theorem rangePairs_succ (i n : ℕ) :
    (List.range (n + 1)).map (fun j => (2 + (i + j), 1 + (i + j)))
      = (2 + i, 1 + i) :: (List.range n).map (fun j => (2 + (i + 1 + j), 1 + (i + 1 + j))) := by
  rw [List.range_succ_eq_map, List.map_cons, List.map_map]
  congr 1
  exact List.map_congr_left fun j _ => by
    simp only [Function.comp_apply, Prod.mk.injEq]
    omega

theorem convLoopGo_char (m : ℕ → ℚ) (conv0 convVar : ℚ) (iVar : ℕ) :
    ∀ fuel i delta k ops, iVar + 1 ≤ fuel + i →
    ∃ n,
      (convLoopGo m conv0 convVar iVar fuel delta i k ops).ops
          = ops ++ (List.range n).map (fun j => (2 + (i + j), 1 + (i + j))) ∧
      (convLoopGo m conv0 convVar iVar fuel delta i k ops).i = i + n ∧
      (convLoopGo m conv0 convVar iVar fuel delta i k ops).delta
          = (if n = 0 then delta else m (k + n) - conv0) ∧
      ¬((convLoopGo m conv0 convVar iVar fuel delta i k ops).delta < convVar ∧
          (convLoopGo m conv0 convVar iVar fuel delta i k ops).i ≤ iVar) := by
  intro fuel
  induction fuel with
  | zero =>
    intro i delta k ops hinv
    refine ⟨0, by simp [convLoopGo], by simp [convLoopGo], by simp [convLoopGo], ?_⟩
    simp only [convLoopGo]
    rintro ⟨-, hle⟩
    omega
  | succ fuel ih =>
    intro i delta k ops hinv
    by_cases hc : delta < convVar ∧ i ≤ iVar
    · simp only [convLoopGo, if_pos hc]
      obtain ⟨n, h1, h2, h3, h4⟩ :=
        ih (i + 1) (m (k + 1) - conv0) (k + 1) (ops ++ [(2 + i, 1 + i)]) (by omega)
      refine ⟨n + 1, ?_, by omega, ?_, h4⟩
      · rw [h1, rangePairs_succ]
        simp
      · rw [h3, if_neg (Nat.succ_ne_zero n)]
        cases n with
        | zero => simp
        | succ n2 =>
          rw [if_neg (Nat.succ_ne_zero n2)]
          have harg : k + 1 + (n2 + 1) = k + (n2 + 1 + 1) := by omega
          rw [harg]
    · simp only [convLoopGo, if_neg hc]
      exact ⟨0, by simp, by simp, by simp, hc⟩

theorem cleanupGo_char (covAt : ℕ → ℚ) (maxCov : ℚ) (maxIter : ℕ) :
    ∀ fuel cov i evals, maxIter + 1 ≤ fuel + i → i ≤ maxIter + 1 → evals = i →
    (cleanupGo covAt maxCov maxIter fuel cov i evals).evals
        = (cleanupGo covAt maxCov maxIter fuel cov i evals).i ∧
    (cleanupGo covAt maxCov maxIter fuel cov i evals).i ≤ maxIter + 1 ∧
    ((cleanupGo covAt maxCov maxIter fuel cov i evals).cov ≤ maxCov ∨
        maxIter < (cleanupGo covAt maxCov maxIter fuel cov i evals).i) := by
  intro fuel
  induction fuel with
  | zero =>
    intro cov i evals hinv hle hev
    refine ⟨by simp [cleanupGo, hev], by simp [cleanupGo, hle], ?_⟩
    simp only [cleanupGo]
    right
    omega
  | succ fuel ih =>
    intro cov i evals hinv hle hev
    by_cases hc : maxCov < cov ∧ i ≤ maxIter
    · simp only [cleanupGo, if_pos hc]
      exact ih (covAt i) (i + 1) (evals + 1) (by omega) (by omega) (by omega)
    · simp only [cleanupGo, if_neg hc]
      refine ⟨hev, hle, ?_⟩
      rcases not_and_or.mp hc with h | h
      · exact Or.inl (not_lt.mp h)
      · exact Or.inr (not_le.mp h)

theorem finePass_stuck : ∀ fuel c u, 9 < c →
    finePass (fun _ => 10) c u fuel = none := by
  intro fuel
  induction fuel with
  | zero =>
    intro c u hc
    simp only [finePass]
    rw [if_neg (by omega)]
  | succ fuel ih =>
    intro c u hc
    simp only [finePass]
    rw [if_neg (by omega)]
    exact ih 10 (u + 2) (by omega)

theorem finePass_exit : ∀ (mCount : ℕ → ℕ) fuel c u out,
    finePass mCount c u fuel = some out → out.1 ≤ 9 ∧ ∃ j, out.2 = u + 2 * j := by
  intro mCount fuel
  induction fuel with
  | zero =>
    intro c u out h
    simp only [finePass] at h
    by_cases hc : c ≤ 9
    · rw [if_pos hc] at h
      cases h
      exact ⟨hc, 0, by omega⟩
    · rw [if_neg hc] at h
      cases h
  | succ fuel ih =>
    intro c u out h
    simp only [finePass] at h
    by_cases hc : c ≤ 9
    · rw [if_pos hc] at h
      cases h
      exact ⟨hc, 0, by omega⟩
    · rw [if_neg hc] at h
      obtain ⟨h1, j, h2⟩ := ih (mCount u) (u + 2) out h
      exact ⟨h1, j + 1, by omega⟩

/-!
## Claim theorems
-/

unseal Rat.add Rat.sub Rat.mul Rat.inv in
/-- Claim C1: the PeakConsensus clustering sorts the pooled valley
indices, takes the median of consecutive differences as the gap
threshold, groups an index into the current cluster when its distance to
the immediately preceding index is at most that median, collapses each
cluster to its median; on pooled indices [10,12,50,53,90] the diffs are
[2,38,3,37], the median gap is 20, the clusters are
[10,12],[50,53],[90], and the consensus peaks are 11, 51.5, 90. -/
theorem claim_C1_clustering_scenario :
    listDiffQ (sortQ [10, 12, 50, 53, 90]) = [2, 38, 3, 37] ∧
    npMedianQ [2, 38, 3, 37] = some 20 ∧
    clusteredList [10, 12, 50, 53, 90] = Res.ok [[10, 12], [50, 53], [90]] ∧
    consensusPeaks [10, 12, 50, 53, 90] = Res.ok [some 11, some (103/2), some 90] := by
  decide

/-- Claim C2 counterexample: the fine-pass loop of src/krn.py lines
148-162 has no hard cap on smoothing-window growth.  For a profile whose
re-smoothed minima count is always 10 (above the exit threshold 9), the
loop is still running after a million re-smoothings — there is no
cap-and-return-best path in the code. -/
theorem claim_C2_counterexample :
    finePass (fun _ => 10) 10 19 1000000 = none :=
  finePass_stuck 1000000 10 19 (by omega)

/-- Claim C2 amended: the fine-pass loop exits only when the minima
count has dropped to 9 or fewer; the window grows by exactly 2 per
re-smoothing with no upper bound, and there is no cap-based best-effort
exit.  Whenever the loop does return, the returned count is at most 9
and the final window value is the initial one plus twice the number of
passes. -/
theorem claim_C2_amended (mCount : ℕ → ℕ) (fuel c u : ℕ) (out : ℕ × ℕ)
    (h : finePass mCount c u fuel = some out) :
    out.1 ≤ 9 ∧ ∃ j, out.2 = u + 2 * j :=
  finePass_exit mCount fuel c u out h

/-- Witness for claim C2 amended at a concrete smoothing oracle. -/
theorem claim_C2_witness :
    finePass (fun _ => 0) 10 19 5 = some (0, 21) ∧
    ((0, 21) : ℕ × ℕ).1 ≤ 9 ∧ ∃ j, ((0, 21) : ℕ × ℕ).2 = 19 + 2 * j :=
  ⟨by decide, claim_C2_amended (fun _ => 0) 5 10 19 (0, 21) (by decide)⟩

unseal Rat.add Rat.sub Rat.mul Rat.inv in
/-- Claim C4 counterexample: the silk-cleanup loop compares
`convexity2 - convexity` where `convexity` is the fixed pre-loop
baseline (src/main.py line 519), not the previous iteration's value.
With baseline convexity 1/2 and measured convexity 1/2 + 3k/100 after k
openings (a steady gain of 0.03 < 0.04 per opening), the source loop
stops after 2 openings (cumulative gain 0.06 reaches 0.04) while the
claimed previous-iteration semantics would run all 10 iterations. -/
theorem claim_C4_counterexample :
    (convexityLoop (fun k => 1/2 + 3 * (k : ℚ)/100) (1/2) (1/25) 10 1).ops.length = 2 ∧
    (convexityLoopSpec (fun k => 1/2 + 3 * (k : ℚ)/100) (1/2) (1/25) 10 1).ops.length = 10 ∧
    convexityLoop (fun k => 1/2 + 3 * (k : ℚ)/100) (1/2) (1/25) 10 1
      ≠ convexityLoopSpec (fun k => 1/2 + 3 * (k : ℚ)/100) (1/2) (1/25) 10 1 := by
  refine ⟨by decide, by decide, ?_⟩
  intro h
  have h1 : (convexityLoop (fun k => 1/2 + 3 * (k : ℚ)/100) (1/2) (1/25) 10 1).ops.length
      = (convexityLoopSpec (fun k => 1/2 + 3 * (k : ℚ)/100) (1/2) (1/25) 10 1).ops.length := by
    rw [h]
  revert h1
  decide

/-- Claim C4 amended: in every iteration the convexity gain is
`delta = convexity_new - baseline`, the difference between the convexity
after the current opening and the FIXED pre-loop baseline (`convexity`
is never reassigned inside the loop); the loop continues while
`delta < minDeltaConvexity` and `iteration ≤ maxIterations`, and the
k-th executed opening (counter value i0+k-1) uses structuring element
size 2+(i0+k-1) and kernel iterations 1+(i0+k-1). -/
theorem claim_C4_amended (m : ℕ → ℚ) (conv0 convVar : ℚ) (iVar i0 : ℕ) :
    ∃ n,
      (convexityLoop m conv0 convVar iVar i0).ops
          = (List.range n).map (fun j => (2 + (i0 + j), 1 + (i0 + j))) ∧
      (convexityLoop m conv0 convVar iVar i0).i = i0 + n ∧
      (convexityLoop m conv0 convVar iVar i0).delta
          = (if n = 0 then 1/1000 else m n - conv0) ∧
      ¬((convexityLoop m conv0 convVar iVar i0).delta < convVar ∧
          (convexityLoop m conv0 convVar iVar i0).i ≤ iVar) := by
  obtain ⟨n, h1, h2, h3, h4⟩ :=
    convLoopGo_char m conv0 convVar iVar (iVar + 1 - i0) i0 (1/1000) 0 [] (by omega)
  rw [List.nil_append] at h1
  rw [Nat.zero_add n] at h3
  unfold convexityLoop
  exact ⟨n, h1, h2, h3, h4⟩

/-- Claim C5: for any COV oracle and any maxIterations at least 1, the
clean-up loop of src/main.py lines 351-377 terminates within
maxIterations+1 COV evaluations and ends either converged
(final COV at most maxCOV) or exhausted (counter past maxIterations),
with no exception: the loop body runs at most maxIterations times.  The
same loop shape is used by the auto-triggered default branch
(maxCOV = 0.35, maxIterations = 10) and the caller-supplied branch. -/
theorem claim_C5_cleanup_termination (covAt : ℕ → ℚ) (cov0 maxCov : ℚ) (maxIter : ℕ)
    (hmi : 1 ≤ maxIter) :
    (cleanupLoop covAt cov0 maxCov maxIter).evals ≤ maxIter + 1 ∧
    ((cleanupLoop covAt cov0 maxCov maxIter).cov ≤ maxCov ∨
        maxIter < (cleanupLoop covAt cov0 maxCov maxIter).i) := by
  obtain ⟨h1, h2, h3⟩ :=
    cleanupGo_char covAt maxCov maxIter maxIter cov0 1 1 (by omega) (by omega) rfl
  unfold cleanupLoop
  exact ⟨by rw [h1]; omega, h3⟩

unseal Rat.add Rat.sub Rat.mul Rat.inv in
/-- Witness for claim C5 at the default thresholds maxCOV = 0.35,
maxIterations = 10. -/
theorem claim_C5_witness :
    (1 ≤ 10) ∧
    ((cleanupLoop (fun _ => 1/10) (1/2) (7/20) 10).evals ≤ 11 ∧
      ((cleanupLoop (fun _ => 1/10) (1/2) (7/20) 10).cov ≤ 7/20 ∨
        10 < (cleanupLoop (fun _ => 1/10) (1/2) (7/20) 10).i)) :=
  ⟨by decide, claim_C5_cleanup_termination (fun _ => 1/10) (1/2) (7/20) 10 (by decide)⟩

/-- Claim C6 counterexample: for a 600-pixel-wide ear, the slicing of
src/krn.py lines 96-111 keeps 4 interior band start columns and the
loop `for i in range(len(b)-1)` then processes only 3 bands, not the 4
bands the claim states. -/
theorem claim_C6_counterexample :
    (sliceStarts 600).length = 4 ∧
    (processedBands 600).length = 3 ∧
    ¬(processedBands 600).length = 4 := by
  decide

/-- Claim C6 amended: the ear is split into 6 vertical bands; the band
START columns are trimmed by dropping the first and the last, leaving
the 4 interior start columns; the processing loop runs over consecutive
pairs of those starts, so only 3 bands (the 2nd, 3rd and 4th of the 6)
are processed — the first band and the last two bands are discarded;
each processed band's valley indices are pooled unshifted into one
array. -/
theorem claim_C6_amended (width : ℕ) (bandValleys : List (List ℚ)) :
    (utilityRanges width 6).length = 6 ∧
    (sliceStarts width).length = 4 ∧
    (processedBands width).length = 3 ∧
    pooledValleys bandValleys = bandValleys.flatten := by
  refine ⟨?_, ?_, ?_, rfl⟩
  · simp [utilityRanges]
  · simp [sliceStarts, utilityRanges]
  · simp [processedBands, sliceStarts, utilityRanges]

/-- Claim C8: the silk-cleanup loop block runs if and only if the
baseline convexity is below 0.87 or the caller supplies custom
silk-cleanup thresholds; with baseline at least 0.87 and no override the
block is skipped (zero loop iterations); and on the default trigger
(minDeltaConvexity = 0.04 = 1/25, maxIterations = 10, starting delta
0.001 = 1/1000, counter starting at 1) at least one opening is
executed. -/
theorem claim_C8_trigger (m : ℕ → ℚ) (conv0 : ℚ) (silk : Option (ℚ × ℕ)) (iOuter : ℕ) :
    ((silkModule m conv0 silk iOuter).isSome ↔ (conv0 < 87/100 ∨ silk.isSome = true)) ∧
    (¬conv0 < 87/100 → silk = none → silkModule m conv0 silk iOuter = none) ∧
    (conv0 < 87/100 →
      ∃ r, silkModule m conv0 silk iOuter = some r ∧ 1 ≤ r.ops.length) := by
  refine ⟨?_, ?_, ?_⟩
  · unfold silkModule
    by_cases hc : conv0 < 87/100
    · simp [hc]
    · cases silk with
      | none => simp [hc]
      | some cfg => simp [hc]
  · intro hc hs
    simp [silkModule, hc, hs]
  · intro hc
    refine ⟨convexityLoop m conv0 (1/25) 10 1, by simp [silkModule, hc], ?_⟩
    obtain ⟨n, h1, h2, h3, h4⟩ :=
      convLoopGo_char m conv0 (1/25) 10 (10 + 1 - 1) 1 (1/1000) 0 [] (by omega)
    unfold convexityLoop
    rw [h1]
    cases n with
    | zero =>
      exfalso
      apply h4
      constructor
      · rw [h3]
        norm_num
      · rw [h2]
        norm_num
    | succ n2 => simp

/-!
## Helper lemmas for the pruning stage
-/

theorem removeFirstNp_sublist (l : List NpVal) (x : NpVal) :
    (removeFirstNp l x).Sublist l := by
  induction l with
  | nil => simp [removeFirstNp]
  | cons y ys ih =>
    simp only [removeFirstNp]
    by_cases h : npEqB y x
    · rw [if_pos h]
      exact List.sublist_cons_self y ys
    · rw [if_neg h]
      exact ih.cons₂ y

theorem innerPruneF_sublist (thr : ℚ) (mx : NpVal) :
    ∀ fuel peaks prev i, (innerPruneF thr mx fuel peaks prev i).Sublist peaks := by
  intro fuel
  induction fuel with
  | zero =>
    intro peaks prev i
    simp [innerPruneF]
  | succ fuel ih =>
    intro peaks prev i
    simp only [innerPruneF]
    by_cases h1 : i < peaks.length
    · rw [if_pos h1]
      by_cases h2 : NpLt (nsub (peaks.getD i none) prev) (nmul (some thr) mx)
      · rw [if_pos h2]
        exact (ih _ prev i).trans (removeFirstNp_sublist peaks _)
      · rw [if_neg h2]
        exact ih peaks _ (i + 1)
    · rw [if_neg h1]

theorem prunePass_ok (temp : List NpVal) (thr : ℚ) (h2 : 2 ≤ temp.length) :
    ∃ out, prunePass temp thr = Res.ok out ∧ out.Sublist temp := by
  cases temp with
  | nil => simp at h2
  | cons a t =>
    cases t with
    | nil => simp at h2
    | cons b rest =>
      exact ⟨innerPruneF thr ((listDiffN (b :: rest)).foldl nmax2 (nsub b a))
          (a :: b :: rest).length (a :: b :: rest) a 1, rfl,
        innerPruneF_sublist thr _ _ _ a 1⟩

theorem prunePass_sublist (temp : List NpVal) (thr : ℚ) (out : List NpVal)
    (h : prunePass temp thr = Res.ok out) : out.Sublist temp := by
  cases temp with
  | nil => simp [prunePass, listDiffN, npMaxN] at h
  | cons a t =>
    cases t with
    | nil => simp [prunePass, listDiffN, npMaxN] at h
    | cons b rest =>
      simp only [prunePass, listDiffN, npMaxN, Res.ok.injEq] at h
      rw [← h]
      exact innerPruneF_sublist thr _ _ _ a 1

theorem pruneGoF_sublist (temp : List NpVal) :
    ∀ fuel thr nexec cur npk thrs r, cur.Sublist temp →
      pruneGoF temp fuel thr nexec cur npk thrs = Res.ok r → r.peaks.Sublist temp := by
  intro fuel
  induction fuel with
  | zero =>
    intro thr nexec cur npk thrs r hsub h
    simp only [pruneGoF, Res.ok.injEq] at h
    rw [← h]
    exact hsub
  | succ fuel ih =>
    intro thr nexec cur npk thrs r hsub h
    simp only [pruneGoF] at h
    by_cases hn : npk < 6
    · rw [if_pos hn] at h
      cases hp : prunePass temp thr with
      | err e =>
        simp only [hp] at h
        exact Res.noConfusion h
      | ok cur2 =>
        simp only [hp] at h
        have hsub2 : cur2.Sublist temp := prunePass_sublist temp thr cur2 hp
        by_cases hb : 6 < nexec + 1
        · rw [if_pos hb] at h
          simp only [Res.ok.injEq] at h
          rw [← h]
          exact hsub2
        · rw [if_neg hb] at h
          exact ih _ _ _ _ _ _ hsub2 h
    · rw [if_neg hn] at h
      simp only [Res.ok.injEq] at h
      rw [← h]
      exact hsub

theorem thrsSnoc (nexec : ℕ) :
    (List.range nexec).map (fun k : ℕ => 9/10 - (k : ℚ)/10) ++ [9/10 - (nexec : ℚ)/10]
      = (List.range (nexec + 1)).map (fun k : ℕ => 9/10 - (k : ℚ)/10) := by
  rw [List.range_succ, List.map_append]
  simp

theorem pruneGoF_char (temp : List NpVal) (h2 : 2 ≤ temp.length) :
    ∀ (fuel : ℕ) (thr : ℚ) (nexec : ℕ) (cur : List NpVal) (npk : ℕ) (thrs : List ℚ),
      fuel + nexec = 7 → nexec ≤ 6 →
      (npk < 6 ∨ npk = cur.length) →
      thr = 9/10 - (nexec : ℚ)/10 →
      thrs = (List.range nexec).map (fun k : ℕ => 9/10 - (k : ℚ)/10) →
      ∃ r, pruneGoF temp fuel thr nexec cur npk thrs = Res.ok r ∧
        nexec ≤ r.numExec ∧ r.numExec ≤ 7 ∧
        (npk < 6 → nexec < r.numExec) ∧
        (6 ≤ r.peaks.length ∨ r.numExec = 7) ∧
        r.thrs = (List.range r.numExec).map (fun k : ℕ => 9/10 - (k : ℚ)/10) := by
  intro fuel
  induction fuel with
  | zero =>
    intro thr nexec cur npk thrs hf hn6 hinv hthr hthrs
    exfalso
    omega
  | succ fuel ih =>
    intro thr nexec cur npk thrs hf hn6 hinv hthr hthrs
    simp only [pruneGoF]
    by_cases hn : npk < 6
    · rw [if_pos hn]
      obtain ⟨out, hout, hsub⟩ := prunePass_ok temp thr h2
      simp only [hout]
      by_cases hb : 6 < nexec + 1
      · rw [if_pos hb]
        have hne : nexec = 6 := by omega
        refine ⟨⟨out, nexec + 1, thrs ++ [thr]⟩, rfl, by dsimp only; omega,
          by dsimp only; omega, fun _ => by dsimp only; omega,
          Or.inr (by dsimp only; omega), ?_⟩
        dsimp only
        rw [hthrs, hthr]
        exact thrsSnoc nexec
      · rw [if_neg hb]
        have hthr2 : thr - 1/10 = 9/10 - ((nexec + 1 : ℕ) : ℚ)/10 := by
          rw [hthr]
          push_cast
          ring
        have hthrs2 : thrs ++ [thr]
            = (List.range (nexec + 1)).map (fun k : ℕ => 9/10 - (k : ℚ)/10) := by
          rw [hthrs, hthr]
          exact thrsSnoc nexec
        obtain ⟨r, hr, ha, hb2, hc, hd, he⟩ :=
          ih (thr - 1/10) (nexec + 1) out out.length (thrs ++ [thr])
            (by omega) (by omega) (Or.inr rfl) hthr2 hthrs2
        exact ⟨r, hr, by omega, hb2, fun _ => by omega, hd, he⟩
    · rw [if_neg hn]
      have hlen : npk = cur.length := hinv.resolve_left hn
      refine ⟨⟨cur, nexec, thrs⟩, rfl, by dsimp only; omega, by dsimp only; omega,
        fun h => absurd h hn, Or.inl (by dsimp only; omega), ?_⟩
      dsimp only
      exact hthrs

theorem prunePeaks_ok_len (peaks0 : List NpVal) (r : PruneResult)
    (h : prunePeaks peaks0 = Res.ok r) : 2 ≤ peaks0.length := by
  cases peaks0 with
  | nil => simp [prunePeaks, pruneGoF, prunePass, npMaxN, listDiffN] at h
  | cons a t =>
    cases t with
    | nil => simp [prunePeaks, pruneGoF, prunePass, npMaxN, listDiffN] at h
    | cons b rest => simp

/-!
## Helper lemmas for the clustering stage
-/

theorem getD_mem_q (s : List ℚ) (i : ℕ) (h : i < s.length) : s.getD i 0 ∈ s := by
  rw [List.getD_eq_getElem s 0 h]
  exact List.getElem_mem h

theorem sorted_getD_le (s : List ℚ) (hs : s.Sorted (· ≤ ·)) (i j : ℕ)
    (hij : i ≤ j) (hj : j < s.length) : s.getD i 0 ≤ s.getD j 0 := by
  have hi : i < s.length := lt_of_le_of_lt hij hj
  rw [List.getD_eq_getElem s 0 hi, List.getD_eq_getElem s 0 hj]
  have := hs.rel_get_of_le (a := ⟨i, hi⟩) (b := ⟨j, hj⟩) hij
  simpa using this

theorem npMedianSorted_between (s : List ℚ) (hs : s.Sorted (· ≤ ·)) (hne : s ≠ []) :
    ∃ u ∈ s, u ≤ npMedianSorted s ∧ ∃ v ∈ s, npMedianSorted s ≤ v := by
  have hlen : 0 < s.length := List.length_pos.mpr hne
  unfold npMedianSorted
  by_cases hodd : s.length % 2 = 1
  · rw [if_pos hodd]
    have hd : s.length / 2 < s.length := Nat.div_lt_self hlen one_lt_two
    exact ⟨_, getD_mem_q s _ hd, le_refl _, _, getD_mem_q s _ hd, le_refl _⟩
  · rw [if_neg hodd]
    have h1 : s.length / 2 - 1 < s.length := by omega
    have h2 : s.length / 2 < s.length := by omega
    have hle : s.getD (s.length / 2 - 1) 0 ≤ s.getD (s.length / 2) 0 :=
      sorted_getD_le s hs _ _ (by omega) h2
    exact ⟨s.getD (s.length / 2 - 1) 0, getD_mem_q s _ h1, by linarith,
      s.getD (s.length / 2) 0, getD_mem_q s _ h2, by linarith⟩

theorem npMedianQ_between (c : List ℚ) (hne : c ≠ []) :
    ∃ q, npMedianQ c = some q ∧ (∃ u ∈ c, u ≤ q) ∧ (∃ v ∈ c, q ≤ v) := by
  cases c with
  | nil => exact absurd rfl hne
  | cons x xs =>
    have hperm : (sortQ (x :: xs)).Perm (x :: xs) := List.perm_insertionSort _ _
    have hs : (sortQ (x :: xs)).Sorted (· ≤ ·) := List.sorted_insertionSort _ _
    have hne2 : sortQ (x :: xs) ≠ [] := by
      intro h0
      have := hperm.length_eq
      rw [h0] at this
      simp at this
    obtain ⟨u, hu, hu2, v, hv, hv2⟩ := npMedianSorted_between _ hs hne2
    exact ⟨npMedianSorted (sortQ (x :: xs)), rfl, ⟨u, hperm.mem_iff.mp hu, hu2⟩,
      ⟨v, hperm.mem_iff.mp hv, hv2⟩⟩

theorem listDiffQ_nonneg : ∀ (l : List ℚ), l.Sorted (· ≤ ·) → ∀ d ∈ listDiffQ l, 0 ≤ d := by
  intro l
  induction l with
  | nil =>
    intro _ d hd
    simp [listDiffQ] at hd
  | cons a t ih =>
    cases t with
    | nil =>
      intro _ d hd
      simp [listDiffQ] at hd
    | cons b t2 =>
      intro hs d hd
      have hab : a ≤ b := (List.sorted_cons.mp hs).1 b (by simp)
      have ht : (b :: t2).Sorted (· ≤ ·) := (List.sorted_cons.mp hs).2
      rcases List.mem_cons.mp hd with h | h
      · rw [h]
        linarith
      · exact ih ht d h

theorem clusterAux_good (g : ℚ) (hg : 0 ≤ g) :
    ∀ (rest : List ℚ) (prev : ℚ) (cur : List ℚ) (acc : List (List ℚ)),
      (prev :: rest).Sorted (· ≤ ·) →
      cur ≠ [] →
      (∀ x ∈ cur, x ≤ prev) →
      (∀ c ∈ acc, c ≠ []) →
      (acc ++ [cur]).Chain' sep →
      (∀ c ∈ clusterAux (some g) rest prev cur acc, c ≠ []) ∧
        (clusterAux (some g) rest prev cur acc).Chain' sep := by
  intro rest
  induction rest with
  | nil =>
    intro prev cur acc h1 h2 h3 h4 h5
    simp only [clusterAux]
    constructor
    · intro c hc
      rcases List.mem_append.mp hc with h | h
      · exact h4 c h
      · rw [List.mem_singleton.mp h]
        exact h2
    · exact h5
  | cons x rs ih =>
    intro prev cur acc h1 h2 h3 h4 h5
    have hpx : prev ≤ x := (List.sorted_cons.mp h1).1 x (by simp)
    have hsx : (x :: rs).Sorted (· ≤ ·) := (List.sorted_cons.mp h1).2
    simp only [clusterAux]
    by_cases hle : NpLe (some |x - prev|) (some g)
    · rw [if_pos hle]
      refine ih x (cur ++ [x]) acc hsx (by simp) ?_ h4 ?_
      · intro y hy
        rcases List.mem_append.mp hy with h | h
        · exact le_trans (h3 y h) hpx
        · rw [List.mem_singleton.mp h]
      · obtain ⟨hacc, -, hlink⟩ := List.chain'_append.mp h5
        refine List.chain'_append.mpr ⟨hacc, List.chain'_singleton _, ?_⟩
        intro a ha b hb
        rw [List.head?_cons, Option.mem_some_iff] at hb
        rw [← hb]
        intro p hp y hy
        rcases List.mem_append.mp hy with h | h
        · exact hlink a ha cur (by simp) p hp y h
        · rw [List.mem_singleton.mp h]
          obtain ⟨y0, hy0⟩ := List.exists_mem_of_ne_nil cur h2
          exact lt_of_lt_of_le (hlink a ha cur (by simp) p hp y0 hy0)
            (le_trans (h3 y0 hy0) hpx)
    · rw [if_neg hle]
      have habs : |x - prev| = x - prev := abs_of_nonneg (by linarith)
      have hgx : g < x - prev := by
        by_contra hcon
        push_neg at hcon
        apply hle
        show |x - prev| ≤ g
        rw [habs]
        exact hcon
      have hprevx : prev < x := by linarith
      refine ih x [x] (acc ++ [cur]) hsx (by simp) (by simp) ?_ ?_
      · intro c hc
        rcases List.mem_append.mp hc with h | h
        · exact h4 c h
        · rw [List.mem_singleton.mp h]
          exact h2
      · refine List.chain'_append.mpr ⟨h5, List.chain'_singleton _, ?_⟩
        intro a ha b hb
        rw [List.head?_cons, Option.mem_some_iff] at hb
        rw [List.getLast?_concat, Option.mem_some_iff] at ha
        rw [← hb, ← ha]
        intro p hp y hy
        rw [List.mem_singleton.mp hy]
        exact lt_of_le_of_lt (le_trans (h3 p hp) (le_refl prev)) hprevx

theorem clusteredList_good (pooled : List ℚ) (h2 : 2 ≤ pooled.length) :
    ∃ cls, clusteredList pooled = Res.ok cls ∧ (∀ c ∈ cls, c ≠ []) ∧ cls.Chain' sep := by
  have hslen : (sortQ pooled).length = pooled.length := (List.perm_insertionSort _ _).length_eq
  have hs0 : (sortQ pooled).Sorted (· ≤ ·) := List.sorted_insertionSort _ _
  cases hsp : sortQ pooled with
  | nil =>
    rw [hsp] at hslen
    simp at hslen
    omega
  | cons p0 rest =>
    rw [hsp] at hs0 hslen
    have hdiffne : listDiffQ (p0 :: rest) ≠ [] := by
      cases rest with
      | nil => simp at hslen; omega
      | cons p1 r2 => simp [listDiffQ]
    obtain ⟨g, hg, ⟨u, hu, hu2⟩, -⟩ := npMedianQ_between _ hdiffne
    have hg0 : 0 ≤ g := le_trans (listDiffQ_nonneg (p0 :: rest) hs0 u hu) hu2
    have hfirst : clusterAux (npMedianQ (listDiffQ (p0 :: rest))) (p0 :: rest) p0 [] []
        = clusterAux (some g) rest p0 [p0] [] := by
      rw [hg]
      simp only [clusterAux]
      rw [if_pos (by simp only [NpLe, sub_self, abs_zero]; exact hg0)]
      simp
    obtain ⟨hne, hch⟩ := clusterAux_good g hg0 rest p0 [p0] [] hs0 (by simp) (by simp)
      (by simp) (by simp)
    refine ⟨clusterAux (some g) rest p0 [p0] [], ?_, hne, hch⟩
    simp only [clusteredList, hsp]
    rw [hfirst]

theorem clusters_chain_median : ∀ (cls : List (List ℚ)), (∀ c ∈ cls, c ≠ []) →
    cls.Chain' sep → (cls.map npMedianQ).Chain' strictLtN := by
  intro cls
  induction cls with
  | nil =>
    intro _ _
    simp
  | cons c t ih =>
    intro hne hch
    cases t with
    | nil => simp
    | cons d t2 =>
      rw [List.map_cons, List.map_cons, List.chain'_cons]
      constructor
      · have hc : c ≠ [] := hne c (by simp)
        have hd : d ≠ [] := hne d (by simp)
        obtain ⟨qc, hqc, -, vc, hvc, hvc2⟩ := npMedianQ_between c hc
        obtain ⟨qd, hqd, ⟨ud, hud, hud2⟩, -⟩ := npMedianQ_between d hd
        have hsep : sep c d := (List.chain'_cons.mp hch).1
        exact ⟨qc, qd, hqc, hqd,
          lt_of_le_of_lt hvc2 (lt_of_lt_of_le (hsep vc hvc ud hud) hud2)⟩
      · rw [← List.map_cons]
        exact ih (fun c2 hc2 => hne c2 (List.mem_cons_of_mem _ hc2))
          (List.chain'_cons.mp hch).2

unseal Rat.add Rat.sub Rat.mul Rat.inv in
/-- Claim C3 counterexample: the pruning input [0, 10] has 2 peaks, so
by the claim the outer loop should exit early (fewer than 6 peaks
remain) after at most 6 passes; the source loop instead keeps running
precisely BECAUSE fewer than 6 peaks remain (`while num_peaks_iter < 6`)
and executes 7 passes (`num_exec` reaches 7 before the `> 6` break). -/
theorem claim_C3_counterexample :
    prunePeaks [some 0, some 10]
      = Res.ok ⟨[some 0, some 10], 7,
          [9/10, 8/10, 7/10, 6/10, 5/10, 4/10, 3/10]⟩ ∧
    ([some 0, some 10] : List NpVal).length < 6 ∧
    ¬((7 : ℕ) ≤ 6) := by
  decide

/-- Claim C3 amended: each outer pass restarts from the clustered peak
list and removes peaks whose gap to the previous retained peak is below
threshold times the maximum inter-peak gap, with the threshold starting
at 0.9 and decreasing by 0.1 per pass; the loop repeats while fewer
than 6 peaks remain after a pass, exiting once at least 6 peaks remain
or after 7 passes (the `num_exec > 6` break). -/
theorem claim_C3_amended (peaks0 : List NpVal) (h2 : 2 ≤ peaks0.length) :
    ∃ r, prunePeaks peaks0 = Res.ok r ∧ 1 ≤ r.numExec ∧ r.numExec ≤ 7 ∧
      (6 ≤ r.peaks.length ∨ r.numExec = 7) ∧
      r.thrs = (List.range r.numExec).map (fun k : ℕ => 9/10 - (k : ℚ)/10) := by
  obtain ⟨r, hr, ha, hb, hc, hd, he⟩ :=
    pruneGoF_char peaks0 h2 7 (9/10) 0 peaks0 0 [] rfl (by omega)
      (Or.inl (by omega)) (by norm_num) (by simp)
  exact ⟨r, hr, hc (by omega), hb, hd, he⟩

/-- Witness for claim C3 amended at the concrete peak list [0, 10]. -/
theorem claim_C3_witness :
    2 ≤ ([some 0, some 10] : List NpVal).length ∧
    ∃ r, prunePeaks [some 0, some 10] = Res.ok r ∧ 1 ≤ r.numExec ∧ r.numExec ≤ 7 ∧
      (6 ≤ r.peaks.length ∨ r.numExec = 7) ∧
      r.thrs = (List.range r.numExec).map (fun k : ℕ => 9/10 - (k : ℚ)/10) :=
  ⟨by decide, claim_C3_amended [some 0, some 10] (by decide)⟩

unseal Rat.add Rat.sub Rat.mul Rat.inv in
/-- Claim C7 counterexample: for band valley lists [0,2,4] and
[100,110,120], krn returns `diff_pre_consensus = 6`, the median of the
per-band median gaps (median of [2, 10]), while the median of the raw
pooled diffs (diffs of [0,2,4,100,110,120], namely [2,2,96,10,10]) is
10 — the returned pre-consensus statistic is NOT the median over the
pooled valley diffs. -/
theorem claim_C7_counterexample :
    krnStats [[0, 2, 4], [100, 110, 120]]
      = Res.ok ⟨some 6, some 108, 2, [some 2, some 110]⟩ ∧
    pooledDiffMedian [[0, 2, 4], [100, 110, 120]] = some 10 ∧
    ¬(some (6 : ℚ) = some (10 : ℚ)) := by
  decide

/-- Claim C7 amended: krn returns, besides the final peak count, a
pre-consensus statistic equal to the median of the per-band median
inter-valley gaps (the median of `dis_kernel`, not of the pooled diffs)
and a post-consensus statistic equal to the median of the diffs of the
final pruned peak positions. -/
theorem claim_C7_amended (bands : List (List ℚ)) (r : KrnOut)
    (h : krnStats bands = Res.ok r) :
    r.pre = npMedianN (bands.map fun vb => npMedianQ (listDiffQ vb)) ∧
    r.post = npMedianN (listDiffN r.finalPeaks) ∧
    r.numPeaks = r.finalPeaks.length := by
  simp only [krnStats] at h
  cases hc : consensusPeaks bands.flatten with
  | err e =>
    rw [hc] at h
    exact Res.noConfusion h
  | ok cons =>
    rw [hc] at h
    cases hp : prunePeaks cons with
    | err e =>
      simp only [hp] at h
      exact Res.noConfusion h
    | ok pr =>
      simp only [hp, Res.ok.injEq] at h
      rw [← h]
      exact ⟨rfl, rfl, rfl⟩

unseal Rat.add Rat.sub Rat.mul Rat.inv in
/-- Witness for claim C7 amended at the concrete band valley lists. -/
theorem claim_C7_witness :
    (⟨some 6, some 108, 2, [some 2, some 110]⟩ : KrnOut).pre
        = npMedianN ([[0, 2, 4], [100, 110, 120]].map fun vb => npMedianQ (listDiffQ vb)) ∧
    (⟨some 6, some 108, 2, [some 2, some 110]⟩ : KrnOut).post
        = npMedianN (listDiffN (⟨some 6, some 108, 2, [some 2, some 110]⟩ : KrnOut).finalPeaks) ∧
    (⟨some 6, some 108, 2, [some 2, some 110]⟩ : KrnOut).numPeaks
        = (⟨some 6, some 108, 2, [some 2, some 110]⟩ : KrnOut).finalPeaks.length :=
  claim_C7_amended [[0, 2, 4], [100, 110, 120]]
    ⟨some 6, some 108, 2, [some 2, some 110]⟩ (by decide)

/-- Claim C9 counterexample: the claim quantifies over every pooled
valley input, but on the single-valley input [5] the median of the
empty diff array is NaN, every comparison against it is false, and the
walk emits a spurious empty cluster: the consensus list is
[NaN, 5.0], which is not a strictly increasing sequence of positions. -/
theorem claim_C9_counterexample :
    consensusPeaks [5] = Res.ok [none, some 5] ∧
    ¬([none, some 5] : List NpVal).Pairwise strictLtN := by
  constructor
  · decide
  · intro h
    obtain ⟨x, y, hx, -, -⟩ := List.rel_of_pairwise_cons h (show some (5 : ℚ) ∈ [some (5 : ℚ)] by simp)
    exact Option.noConfusion hx

/-- Claim C9 amended: for every pooled valley input with at least two
valleys (so that the median gap is an actual number — the precondition
claim C10 records), the consensus peak list is strictly increasing
(every cluster median strictly exceeds the previous one, since a new
cluster starts only when the gap exceeds the nonnegative median gap),
rendering it duplicate-free; and pruning only deletes elements, so the
pruned list is a sublist and stays strictly increasing. -/
theorem claim_C9_peakset_monotone (pooled : List ℚ) (cons : List NpVal)
    (h2 : 2 ≤ pooled.length) (hcons : consensusPeaks pooled = Res.ok cons) :
    cons.Pairwise strictLtN ∧
    ∀ r, prunePeaks cons = Res.ok r →
      r.peaks.Sublist cons ∧ r.peaks.Pairwise strictLtN := by
  obtain ⟨cls, hcls, hne, hch⟩ := clusteredList_good pooled h2
  have hmap : cons = cls.map npMedianQ := by
    simp only [consensusPeaks, hcls, Res.ok.injEq] at hcons
    exact hcons.symm
  have hpw : cons.Pairwise strictLtN := by
    rw [hmap]
    exact List.chain'_iff_pairwise.mp (clusters_chain_median cls hne hch)
  refine ⟨hpw, fun r hr => ?_⟩
  have hsub : r.peaks.Sublist cons :=
    pruneGoF_sublist cons 7 (9/10) 0 cons 0 [] r (List.Sublist.refl cons) hr
  exact ⟨hsub, hpw.sublist hsub⟩

unseal Rat.add Rat.sub Rat.mul Rat.inv in
/-- Witness for claim C9 amended at the Scenario C input. -/
theorem claim_C9_witness :
    2 ≤ ([10, 12, 50, 53, 90] : List ℚ).length ∧
    ([some 11, some (103/2), some 90] : List NpVal).Pairwise strictLtN :=
  ⟨by decide,
    (claim_C9_peakset_monotone [10, 12, 50, 53, 90]
      [some 11, some (103/2), some 90] (by decide) (by decide)).1⟩

unseal Rat.add Rat.sub Rat.mul Rat.inv in
/-- Claim C10: krn's consensus stage has an implicit nonemptiness
precondition.  On an empty pooled valley array, `all_peaks[0]` raises
IndexError before clustering; when clustering collapses the valleys to
a single consensus peak (e.g. pooled [10,12,14], whose gaps all equal
the median gap, giving one cluster), `np.max` of the empty diff array
raises ValueError in the pruning stage; and in general pruning returns
a value exactly when at least two consensus peaks enter it. -/
theorem claim_C10_preconditions :
    krnStats [[]] = Res.err PyErr.indexError ∧
    consensusPeaks [10, 12, 14] = Res.ok [some 12] ∧
    krnStats [[10, 12, 14]] = Res.err PyErr.valueError ∧
    (∀ (pooled : List ℚ) (cons : List NpVal), consensusPeaks pooled = Res.ok cons →
      ((∃ r, prunePeaks cons = Res.ok r) ↔ 2 ≤ cons.length)) := by
  refine ⟨by decide, by decide, by decide, ?_⟩
  intro pooled cons _
  constructor
  · rintro ⟨r, hr⟩
    exact prunePeaks_ok_len cons r hr
  · intro hlen
    obtain ⟨r, hr, -, -, -, -, -⟩ :=
      pruneGoF_char cons hlen 7 (9/10) 0 cons 0 [] rfl (by omega)
        (Or.inl (by omega)) (by norm_num) (by simp)
    exact ⟨r, hr⟩

unseal Rat.add Rat.sub Rat.mul Rat.inv in
/-- Witness for claim C10 at the Scenario C input. -/
theorem claim_C10_witness :
    consensusPeaks [10, 12, 50, 53, 90] = Res.ok [some 11, some (103/2), some 90] ∧
    ((∃ r, prunePeaks [some 11, some (103/2), some 90] = Res.ok r) ↔
      2 ≤ ([some 11, some (103/2), some 90] : List NpVal).length) :=
  ⟨by decide,
    claim_C10_preconditions.2.2.2 [10, 12, 50, 53, 90]
      [some 11, some (103/2), some 90] (by decide)⟩

unseal Rat.add Rat.sub Rat.mul Rat.inv in
/-- Witness for claim C8: with baseline convexity 0.9 and no override
the block is skipped; with baseline 0.5 the default loop runs at least
one opening. -/
theorem claim_C8_witness :
    silkModule (fun _ => 0) (9/10) none 5 = none ∧
    ∃ r, silkModule (fun _ => 0) (1/2) none 5 = some r ∧ 1 ≤ r.ops.length :=
  ⟨(claim_C8_trigger (fun _ => 0) (9/10) none 5).2.1 (by decide) rfl,
    (claim_C8_trigger (fun _ => 0) (1/2) none 5).2.2 (by decide)⟩
